import Mathlib

/-!
Verification of the MoviesGPT recommendation pipeline.

This file gives a shallow embedding of the core logic of the repository
(`src/services/geminiService.ts` and the `displayMovies` pipeline of the main
application component) and proves the specification claims about it.

Modelling conventions:
 - JavaScript strings are modelled as `List Char` (`Str`).  The claims in
   question only involve characters for which JavaScript UTF-16 code units and
   Lean characters agree.
 - Fallible asynchronous operations are modelled with `Except JsError`; a
   promise that resolves is `.ok`, a promise that rejects is `.error`.
 - The outcome of each external model call is supplied by an environment
   (`GeminiEnv`); the i-th invocation of the retried operation is the i-th
   entry of a stream of outcomes.
 - `JSON.parse` is a platform primitive, not repository code; it is modelled
   abstractly as an environment function `Str → Option RecommendationResponse`
   (`none` models a parse exception), typed at the declared TypeScript
   interface per spec section 4.2 (no schema validation beyond parsing).
 - `Array.prototype.sort` is a stable comparator sort (ECMAScript 2019); with
   a consistent comparator the stable result is unique, so it is modelled by a
   stable insertion sort.
-/

namespace MoviesGPT

/-- JavaScript strings, modelled as lists of characters. -/
abbrev Str := List Char

/-- Whitespace recognised by `String.prototype.trim` (ASCII part; the claims
only involve ASCII whitespace). -/
def isWsChar (c : Char) : Bool :=
  c == ' ' || c == '\t' || c == '\n' || c == '\r' || c == '\x0b' || c == '\x0c'

/-- Model of `String.prototype.trim`: drop whitespace from both ends. -/
def trimStr (s : Str) : Str :=
  ((s.dropWhile isWsChar).reverse.dropWhile isWsChar).reverse

/-- Model of `String.prototype.toLowerCase`, applied per character. -/
def toLowerStr (s : Str) : Str := s.map Char.toLower

/-- Does the second string start with the first?  Model of
`String.prototype.startsWith` and of an anchored head regex match. -/
def swStr : Str → Str → Bool
  | [], _ => true
  | _ :: _, [] => false
  | p :: ps, c :: cs => p == c && swStr ps cs

/-- Does the second string end with the first?  Model of an anchored tail
regex match such as the trailing-fence removal. -/
def ewStr (pat s : Str) : Bool := swStr pat.reverse s.reverse

/-- Model of `String.prototype.includes`. -/
def containsSub (pat : Str) : Str → Bool
  | [] => pat.isEmpty
  | c :: cs => swStr pat (c :: cs) || containsSub pat cs

/-- Model of `String.prototype.indexOf` for a single character, with `none`
for the JavaScript sentinel `-1`. -/
def idxOfChar (c : Char) : Str → Option Nat
  | [] => none
  | x :: xs => if x == c then some 0 else (idxOfChar c xs).map (· + 1)

/-- Model of `String.prototype.lastIndexOf` for a single character. -/
def lastIdxOfChar (c : Char) (s : Str) : Option Nat :=
  (idxOfChar c s.reverse).map (fun i => s.length - 1 - i)

/-- The generic fenced code-block marker. -/
def fence : Str := "```".toList

/-- The json-tagged fenced code-block marker. -/
def fenceJson : Str := "```json".toList

/-- Model of `text.replace(/^PAT/, '')`: remove `pat` from the front when the
text starts with it. -/
def stripLeading (pat s : Str) : Str :=
  if swStr pat s then s.drop pat.length else s

/-- Model of `text.replace(/PAT$/, '')`: remove `pat` from the end when the
text ends with it. -/
def stripTrailing (pat s : Str) : Str :=
  if ewStr pat s then s.take (s.length - pat.length) else s

/-- The fence-stripping step of `GeminiService.extractJSON` (lines 92-97 of
`src/services/geminiService.ts`). -/
def stripFences (t : Str) : Str :=
  if swStr fenceJson t then stripTrailing fence (stripLeading fenceJson t)
  else if swStr fence t then stripTrailing fence (stripLeading fence t)
  else t

/-- The brace-span step of `GeminiService.extractJSON` (lines 99-107): take
the inclusive substring between the first opening brace and the last closing
brace when both exist in that order, otherwise the text unchanged. -/
def braceSlice (t : Str) : Str :=
  match idxOfChar '\x7b' t, lastIdxOfChar '\x7d' t with
  | some s, some e => if s < e then (t.take (e + 1)).drop s else t
  | some _, none => t
  | none, some _ => t
  | none, none => t

/-- `GeminiService.extractJSON`: trim, strip fences, extract the brace span. -/
def extractJSON (text : Str) : Str := braceSlice (stripFences (trimStr text))

/-- A caught JavaScript failure value as inspected by the service: an optional
HTTP-like `status` and an optional `message`. -/
structure JsError where
  status : Option Int
  message : Option Str
  deriving DecidableEq

/-- The retryability test of `GeminiService.withRetry` (line 115):
`error?.status === 503 || error?.status === 429 ||
 error?.message?.includes('fetch failed')`. -/
def isRetryable (e : JsError) : Bool :=
  e.status == some 503 || e.status == some 429 ||
    (match e.message with
     | some m => containsSub ("fetch failed".toList) m
     | none => false)

/-- Recursion core of `GeminiService.withRetry` (lines 111-124).  `op i` is
the outcome of the i-th invocation of the operation.  Returns the final
outcome, the total number of invocations performed, and the list of delays
slept (in milliseconds) between attempts. -/
def withRetryAux {α : Type} (op : Nat → Except JsError α) :
    Nat → Nat → Nat → List Nat → Except JsError α × Nat × List Nat
  | 0, _delay, attempt, delays =>
    match op attempt with
    | .ok v => (.ok v, attempt + 1, delays)
    | .error e => (.error e, attempt + 1, delays)
  | r + 1, delay, attempt, delays =>
    match op attempt with
    | .ok v => (.ok v, attempt + 1, delays)
    | .error e =>
      if isRetryable e then withRetryAux op r (delay * 2) (attempt + 1) (delays ++ [delay])
      else (.error e, attempt + 1, delays)

/-- `GeminiService.withRetry` with its default arguments made explicit
(`retries = 2`, `delay = 1000` at the call sites). -/
def withRetry {α : Type} (op : Nat → Except JsError α) (retries delay : Nat) :
    Except JsError α × Nat × List Nat :=
  withRetryAux op retries delay 0 []

/-- The five display languages of `src/types.ts` (`Language` union type). -/
inductive Language
  | English
  | Hindi
  | Marathi
  | Spanish
  | French
  deriving DecidableEq

/-- The `'movie' | 'tv'` union of the `Movie.type` field. -/
inductive MovieType
  | movie
  | tv
  deriving DecidableEq

/-- The `Movie` interface of `src/types.ts`. -/
structure Movie where
  title : Str
  year : Str
  genres : List Str
  runtime : Str
  rating : Str
  emotionalTone : Str
  reason : Str
  synopsis : Option Str
  bestSuitedFor : Str
  trailerUrl : Option Str
  language : Option Str
  director : Option Str
  specialFeature : Option Str
  industry : Option Str
  type : Option MovieType
  totalSeasons : Option Str
  deriving DecidableEq

/-- The `Source` interface of `src/types.ts`. -/
structure Source where
  title : Str
  uri : Str
  deriving DecidableEq

/-- The `RecommendationResponse` interface of `src/types.ts`.  Optional
fields are `Option`; an absent key is `none`. -/
structure RecommendationResponse where
  summary : Str
  clarifyingQuestions : Option (List Str)
  recommendations : List Movie
  sources : Option (List Source)
  deriving DecidableEq

/-- The `web` part of a grounding chunk as read by `sendMessage`
(`chunk.web?.uri`, `chunk.web?.title`). -/
structure WebInfo where
  uri : Option Str
  title : Option Str
  deriving DecidableEq

/-- A grounding chunk of the generate-content result. -/
structure GroundingChunk where
  web : Option WebInfo
  deriving DecidableEq

/-- The part of a `GenerateContentResponse` consumed by `sendMessage`:
`result.text` (possibly absent) and the optional grounding chunk list. -/
structure GenerateContentResult where
  text : Option Str
  groundingChunks : Option (List GroundingChunk)
  deriving DecidableEq

/-- Environment supplying the outcomes of all external calls made by the
service.  `attempts i` is the outcome of the i-th invocation of the chat
`sendMessage` operation inside the retry wrapper; `jsonParse` abstracts the
platform `JSON.parse` (`none` models a thrown `SyntaxError`); `synopsisCall`
is the outcome of the single-shot `generateContent` call of
`getMovieSynopsis`. -/
structure GeminiEnv where
  chatInit : Except JsError Unit
  attempts : Nat → Except JsError GenerateContentResult
  jsonParse : Str → Option RecommendationResponse
  synopsisCall : Except JsError (Option Str)

/-- The error thrown by `sendMessage` when the model returns no text
(line 149 of `src/services/geminiService.ts`). -/
def emptyResponseError : JsError :=
  { status := none, message := some ("Empty response from Gemini.".toList) }

/-- The `default` row of the localized error table (lines 193-199). -/
def errorMapDefault : List (Language × Str) :=
  [(.English, ("I\x27m having trouble connecting to the movie database. Please check your internet connection and try again.".toList)),
   (.Hindi, ("डेटाबेस से जुड़ने में समस्या आ रही है। कृपया अपना इंटरनेट कनेक्शन जांचें और पुनः प्रयास करें।".toList)),
   (.Marathi, ("डेटाबेसशी कनेक्ट करण्यात समस्या येत आहे. कृपया तुमचे इंटरनेट कनेक्शन तपासा आणि पुन्हा प्रयत्न करा.".toList)),
   (.Spanish, ("Tengo problemas para conectarme a la base de datos. Por favor, verifica tu conexión a internet e inténtalo de nuevo.".toList)),
   (.French, ("Je rencontre des problèmes de connexion. Veuillez vérifier votre connexion internet et réessayer.".toList))]

/-- The `safety` row of the localized error table (lines 200-206). -/
def errorMapSafety : List (Language × Str) :=
  [(.English, ("I cannot provide recommendations for that specific query due to safety guidelines. Please try a different topic.".toList)),
   (.Hindi, ("सुरक्षा दिशानिर्देशों के कारण मैं उस विषय पर सुझाव नहीं दे सकता। कृपया कोई अन्य विषय आज़माएं।".toList)),
   (.Marathi, ("सुरक्षा मार्गदर्शक तत्त्वांमुळे मी त्या विषयावर शिफारसी देऊ शकत नाही. कृपया वेगळा विषय वापरून पहा.".toList)),
   (.Spanish, ("No puedo proporcionar recomendaciones para esa consulta debido a pautas de seguridad. Intenta con otro tema.".toList)),
   (.French, ("Je ne peux pas fournir de recommandations pour cette requête en raison des règles de sécurité.".toList))]

/-- The two error classes of the catch handler (`errorType`). -/
inductive ErrorType
  | default
  | safety
  deriving DecidableEq

/-- Does the failure message contain the given marker
(`error?.message?.includes(pat)`)? -/
def msgIncludes (e : JsError) (pat : Str) : Bool :=
  match e.message with
  | some m => containsSub pat m
  | none => false

/-- Error classification of the catch handler (lines 210-213): a message
containing `SAFETY` or `BLOCKED` is `safety`, anything else `default`. -/
def classifyError (e : JsError) : ErrorType :=
  if msgIncludes e ("SAFETY".toList) || msgIncludes e ("BLOCKED".toList) then .safety
  else .default

/-- Row selection `errorMap[errorType]`. -/
def errorMap (t : ErrorType) : List (Language × Str) :=
  match t with
  | .default => errorMapDefault
  | .safety => errorMapSafety

/-- Keyed lookup `row[language]`, `none` when the key has no entry. -/
def lookupLang (tbl : List (Language × Str)) (lang : Language) : Option Str :=
  (tbl.find? (fun p => p.1 == lang)).map (fun p => p.2)

/-- The summary of the degraded response, `errorMap[errorType][language]`.
The tables are total over `Language`, so the default is never used. -/
def errorSummary (e : JsError) (lang : Language) : Str :=
  (lookupLang (errorMap (classifyError e)) lang).getD []

/-- The degraded `RecommendationResponse` built by the catch handler
(lines 215-218). -/
def errorResponse (e : JsError) (lang : Language) : RecommendationResponse :=
  { summary := errorSummary e lang
    clarifyingQuestions := none
    recommendations := []
    sources := none }

/-- The parse-with-fallback step of `sendMessage` (lines 153-164): on parse
failure, an empty recommendation list with the offending text as summary,
truncated to 500 characters plus an ellipsis when longer.  Total by
construction: the parse failure is consumed here. -/
def parseRecommendation (jsonParse : Str → Option RecommendationResponse)
    (cleanJson : Str) : RecommendationResponse :=
  match jsonParse cleanJson with
  | some parsed => parsed
  | none =>
    { summary := if 500 < cleanJson.length then cleanJson.take 500 ++ "...".toList else cleanJson
      clarifyingQuestions := none
      recommendations := []
      sources := none }

/-- The per-chunk extraction of the grounding loop (lines 171-178): a chunk
contributes a source exactly when both `web.uri` and `web.title` are present
and truthy (non-empty). -/
def chunkSource (chunk : GroundingChunk) : Option Source :=
  match chunk.web with
  | some w =>
    match w.uri, w.title with
    | some u, some t => if !u.isEmpty && !t.isEmpty then some { title := t, uri := u } else none
    | some _, none => none
    | none, some _ => none
    | none, none => none
  | none => none

/-- The `groundingChunks.forEach(... sources.push ...)` accumulation. -/
def collectSources (chunks : List GroundingChunk) : List Source :=
  chunks.foldl (fun acc c =>
    match chunkSource c with
    | some s => acc ++ [s]
    | none => acc) []

/-- One `Map.prototype.set` step on an insertion-ordered map: overwrite in
place when the key exists, append otherwise. -/
def jsMapSet (m : List (Str × Source)) (k : Str) (v : Source) : List (Str × Source) :=
  if m.any (fun p => p.1 == k) then
    m.map (fun p => if p.1 == k then (k, v) else p)
  else m ++ [(k, v)]

/-- The insertion-ordered map built by
`new Map(sources.map(item => [item.uri, item]))`. -/
def mapOf (sources : List Source) : List (Str × Source) :=
  sources.foldl (fun m item => jsMapSet m item.uri item) []

/-- `Array.from(new Map(sources.map(item => [item.uri, item])).values())`
(line 182): deduplicate by URI, last value wins, first-insertion order. -/
def dedupSources (sources : List Source) : List Source :=
  (mapOf sources).map (fun p => p.2)

/-- The try-block of `GeminiService.sendMessage` (lines 127-186), with every
`throw` surfaced as `.error`.  The message and language parameters shape the
prompt sent to the model, whose behaviour the environment abstracts. -/
def sendMessageBody (env : GeminiEnv) (_message : Str) (_language : Language) :
    Except JsError RecommendationResponse :=
  match env.chatInit with
  | .error e => .error e
  | .ok _ =>
    match (withRetry env.attempts 2 1000).1 with
    | .error e => .error e
    | .ok result =>
      match result.text with
      | none => .error emptyResponseError
      | some text =>
        if text.isEmpty then .error emptyResponseError
        else
          let cleanJson := extractJSON text
          let parsed := parseRecommendation env.jsonParse cleanJson
          let uniqueSources := dedupSources (collectSources (result.groundingChunks.getD []))
          .ok { parsed with sources := some uniqueSources }

/-- `GeminiService.sendMessage` (lines 126-220): the try-block with the catch
handler that converts every failure into a localized degraded response. -/
def sendMessage (env : GeminiEnv) (message : Str) (language : Language) :
    Except JsError RecommendationResponse :=
  match sendMessageBody env message language with
  | .ok r => .ok r
  | .error e => .ok (errorResponse e language)

/-- The fixed cold-start seed prompt (line 223). -/
def coldStartPrompt : Str :=
  ("Start a new session. Provide a diverse set of 6 high-quality starter recommendations. Include a mix of Movies and **TV Series/Web Shows**. Include Hollywood, Indian content, and International hits. Fetch real IMDb ratings and trailer URLs.".toList)

/-- `GeminiService.getColdStart` (lines 222-226): `sendMessage` on the seed
prompt, wrapped in the retry executor.  The instrumented triple also reports
the invocation count and the delays slept. -/
def getColdStart (env : GeminiEnv) (language : Language) :
    Except JsError RecommendationResponse × Nat × List Nat :=
  withRetry (fun _ => sendMessage env coldStartPrompt language) 2 1000

/-- The fixed sentinel of `getMovieSynopsis`. -/
def synopsisUnavailable : Str := "Synopsis unavailable.".toList

/-- `GeminiService.getMovieSynopsis` (lines 228-242):
`response.text?.trim() || "Synopsis unavailable."` inside a global
try/catch. -/
def getMovieSynopsis (env : GeminiEnv) (_title _year : Str) (_language : Language) :
    Except JsError Str :=
  match env.synopsisCall with
  | .error _ => .ok synopsisUnavailable
  | .ok none => .ok synopsisUnavailable
  | .ok (some t) =>
    if (trimStr t).isEmpty then .ok synopsisUnavailable else .ok (trimStr t)

/-- The `HistoryItem` interface of `src/types.ts`. -/
structure HistoryItem where
  query : Str
  timestamp : Nat
  deriving DecidableEq

/-- `historyService.addToHistory` (lines 261-275 of the history service):
prepend the new item, drop existing entries whose lowercased query equals the
lowercased trimmed new query, cap at 20. -/
def addToHistory (query : Str) (history : List HistoryItem) (now : Nat) :
    List HistoryItem :=
  let newItem : HistoryItem := { query := query, timestamp := now }
  let filtered := history.filter (fun h => !(toLowerStr h.query == toLowerStr (trimStr query)))
  (newItem :: filtered).take 20

/-- Model of `parseInt(s)` restricted to decimal inputs: skip leading
whitespace, accept an optional sign, then the longest run of decimal digits;
`none` models `NaN`.  (The automatic hexadecimal mode for `0x` inputs is not
modelled; the claims concern year strings.) -/
def parseIntDigits (t : Str) : Option Int :=
  let ds := t.takeWhile Char.isDigit
  if ds.isEmpty then none
  else some (Int.ofNat (ds.foldl (fun acc c => acc * 10 + (c.toNat - 48)) 0))

/-- Model of the JavaScript `parseInt` used by the year sort and the decade
filter. -/
def parseIntJS (s : Str) : Option Int :=
  match s.dropWhile isWsChar with
  | '-' :: rest => (parseIntDigits rest).map (fun n => -n)
  | '+' :: rest => parseIntDigits rest
  | t => parseIntDigits t

/-- The `viewMode === 'watchlist' ? watchlist : recommendations` selector. -/
inductive ViewSel
  | watchlist
  | recommendations
  deriving DecidableEq

/-- The `filterType` state: `'all' | 'movie' | 'tv'`. -/
inductive TypeFilter
  | all
  | movie
  | tv
  deriving DecidableEq

/-- The `filterIndustry` state: `'all'` or a target industry string. -/
inductive IndustryFilter
  | all
  | industry (target : Str)
  deriving DecidableEq

/-- The `filterDecade` state: `'all'`, `'older'`, or a decade-start string. -/
inductive DecadeFilter
  | all
  | older
  | decade (start : Str)
  deriving DecidableEq

/-- The `filterGenre` state: `'all'` or a genre substring. -/
inductive GenreFilter
  | all
  | genre (g : Str)
  deriving DecidableEq

/-- The `sortBy` state: `'default' | 'newest' | 'oldest'`. -/
inductive SortBy
  | default
  | newest
  | oldest
  deriving DecidableEq

/-- `movie.year.split('–')[0]` as used by the sort comparators: the text
before the first en dash. -/
def yearHeadForSort (m : Movie) : Str :=
  m.year.takeWhile (fun c => !(c == '–'))

/-- `parseInt(movie.year.split('–')[0]) || 0`: the year key used by both sort
comparators, with unparseable years collapsing to 0. -/
def yearKey (m : Movie) : Int :=
  match parseIntJS (yearHeadForSort m) with
  | some n => n
  | none => 0

/-- `movie.year.split('–')[0].split('-')[0].trim()` as used by the decade
filter. -/
def yearHeadForDecade (m : Movie) : Str :=
  trimStr ((m.year.takeWhile (fun c => !(c == '–'))).takeWhile (fun c => !(c == '-')))

/-- The decade-filter predicate (lines 227-238 of the main component): an
unparseable year matches nothing; `older` means before 1980; a decade-start
string matches the ten-year window. -/
def decadeMatches (fd : DecadeFilter) (m : Movie) : Bool :=
  match parseIntJS (yearHeadForDecade m) with
  | none => false
  | some y =>
    match fd with
    | .all => true
    | .older => y < 1980
    | .decade s =>
      match parseIntJS s with
      | none => false
      | some d => d ≤ y && y < d + 10

/-- The industry-filter predicate (lines 216-222): substring match of the
lowercased target against the lowercased industry or language field. -/
def industryMatches (target : Str) (m : Movie) : Bool :=
  containsSub (toLowerStr target) (toLowerStr (m.industry.getD [])) ||
    containsSub (toLowerStr target) (toLowerStr (m.language.getD []))

/-- The genre-filter predicate (lines 242-246). -/
def genreMatches (g : Str) (m : Movie) : Bool :=
  m.genres.any (fun x => containsSub (toLowerStr g) (toLowerStr x))

/-- Stable insertion of one element: walk past every element that strictly
precedes `x` under the comparator. -/
def insertOrdered {α : Type} (lt : α → α → Bool) (x : α) : List α → List α
  | [] => [x]
  | y :: ys => if lt y x then y :: insertOrdered lt x ys else x :: y :: ys

/-- Stable comparator sort: the model of `Array.prototype.sort` with a
consistent comparator (`lt a b` iff the comparator orders `a` strictly before
`b`). -/
def sortByComparator {α : Type} (lt : α → α → Bool) : List α → List α
  | [] => []
  | x :: xs => insertOrdered lt x (sortByComparator lt xs)

/-- The `displayMovies` pipeline (lines 204-266 of the main component):
select the current list, apply the type, industry, decade and genre filters
in order, then sort. -/
def displayMovies (viewMode : ViewSel) (watchlist recommendations : List Movie)
    (filterType : TypeFilter) (filterIndustry : IndustryFilter)
    (filterDecade : DecadeFilter) (filterGenre : GenreFilter) (sortBy : SortBy) :
    List Movie :=
  let currentList := match viewMode with
    | .watchlist => watchlist
    | .recommendations => recommendations
  let f0 := match filterType with
    | .all => currentList
    | .movie => currentList.filter (fun m => m.type == some .movie)
    | .tv => currentList.filter (fun m => m.type == some .tv)
  let f1 := match filterIndustry with
    | .all => f0
    | .industry t => f0.filter (industryMatches t)
  let f2 := match filterDecade with
    | .all => f1
    | .older => f1.filter (decadeMatches .older)
    | .decade s => f1.filter (decadeMatches (.decade s))
  let f3 := match filterGenre with
    | .all => f2
    | .genre g => f2.filter (genreMatches g)
  match sortBy with
  | .default => f3
  | .newest => sortByComparator (fun a b => decide (yearKey b < yearKey a)) f3
  | .oldest => sortByComparator (fun a b => decide (yearKey a < yearKey b)) f3

/-- A movie with the given year string and placeholder content, for concrete
evaluations. -/
def mkMovie (y : Str) : Movie :=
  { title := y, year := y, genres := [], runtime := [], rating := [],
    emotionalTone := [], reason := [], synopsis := none, bestSuitedFor := [],
    trailerUrl := none, language := none, director := none,
    specialFeature := none, industry := none, type := none, totalSeasons := none }

/-! ## Helper lemmas about the retry executor -/

theorem withRetryAux_ok {α : Type} (op : Nat → Except JsError α) (r d a : Nat)
    (ds : List Nat) (v : α) (hop : op a = .ok v) :
    withRetryAux op r d a ds = (.ok v, a + 1, ds) := by
  cases r <;> simp [withRetryAux, hop]

theorem withRetryAux_retry_step {α : Type} (op : Nat → Except JsError α) (r d a : Nat)
    (ds : List Nat) (e : JsError) (hop : op a = .error e) (hre : isRetryable e = true) :
    withRetryAux op (r + 1) d a ds = withRetryAux op r (d * 2) (a + 1) (ds ++ [d]) := by
  simp [withRetryAux, hop, hre]

theorem withRetryAux_stop_step {α : Type} (op : Nat → Except JsError α) (r d a : Nat)
    (ds : List Nat) (e : JsError) (hop : op a = .error e) (hre : isRetryable e = false) :
    withRetryAux op r d a ds = (.error e, a + 1, ds) := by
  cases r <;> simp [withRetryAux, hop, hre]

theorem withRetryAux_exhausted {α : Type} (op : Nat → Except JsError α) (d a : Nat)
    (ds : List Nat) (e : JsError) (hop : op a = .error e) :
    withRetryAux op 0 d a ds = (.error e, a + 1, ds) := by
  simp [withRetryAux, hop]

theorem withRetryAux_invocations_le {α : Type} (op : Nat → Except JsError α) :
    ∀ (r d a : Nat) (ds : List Nat), (withRetryAux op r d a ds).2.1 ≤ a + 1 + r := by
  intro r
  induction r with
  | zero =>
    intro d a ds
    cases hop : op a with
    | ok v => rw [withRetryAux_ok op 0 d a ds v hop]
    | error e => rw [withRetryAux_exhausted op d a ds e hop]
  | succ r ih =>
    intro d a ds
    cases hop : op a with
    | ok v =>
      rw [withRetryAux_ok op (r + 1) d a ds v hop]
      show a + 1 ≤ a + 1 + (r + 1)
      omega
    | error e =>
      cases hre : isRetryable e with
      | true =>
        rw [withRetryAux_retry_step op r d a ds e hop hre]
        have := ih (d * 2) (a + 1) (ds ++ [d])
        omega
      | false =>
        rw [withRetryAux_stop_step op (r + 1) d a ds e hop hre]
        show a + 1 ≤ a + 1 + (r + 1)
        omega

theorem isRetryable_of_503 (e : JsError) (h : e.status = some 503) :
    isRetryable e = true := by
  simp [isRetryable, h]

/-! ## Helper lemmas about the session boundary -/

theorem sendMessage_isOk (env : GeminiEnv) (message : Str) (language : Language) :
    ∃ r : RecommendationResponse, sendMessage env message language = .ok r := by
  unfold sendMessage
  cases h : sendMessageBody env message language with
  | ok r => exact ⟨r, rfl⟩
  | error e => exact ⟨errorResponse e language, rfl⟩

theorem getColdStart_eq (env : GeminiEnv) (language : Language) :
    ∃ r : RecommendationResponse,
      sendMessage env coldStartPrompt language = .ok r ∧
      getColdStart env language = (.ok r, 1, []) := by
  obtain ⟨r, hr⟩ := sendMessage_isOk env coldStartPrompt language
  refine ⟨r, hr, ?_⟩
  unfold getColdStart withRetry
  exact withRetryAux_ok _ 2 1000 0 [] r hr

theorem getMovieSynopsis_isOk (env : GeminiEnv) (title year : Str) (language : Language) :
    ∃ s : Str, getMovieSynopsis env title year language = .ok s := by
  cases h : env.synopsisCall with
  | error e => exact ⟨synopsisUnavailable, by simp [getMovieSynopsis, h]⟩
  | ok t =>
    cases t with
    | none => exact ⟨synopsisUnavailable, by simp [getMovieSynopsis, h]⟩
    | some txt =>
      by_cases hempty : (trimStr txt).isEmpty = true
      · exact ⟨synopsisUnavailable, by simp [getMovieSynopsis, h, hempty]⟩
      · exact ⟨trimStr txt, by simp [getMovieSynopsis, h, hempty]⟩

/-! ## Claims about the retry executor -/

/-- C3: `withRetry` with `maxRetries = 2`, `initialDelayMs = 1000` retries a
failed operation only when the failure is retryable (status 503 or 429 or a
network-failure message) and retries remain; each retry doubles the delay and
decrements the remaining count, so there are at most 3 total invocations; an
operation failing twice with a 503 signal and then succeeding yields the
success value after exactly 3 invocations with delays 1000ms and 2000ms. -/
theorem spec_C3 :
    (∀ (α : Type) (op : Nat → Except JsError α),
        (withRetry op 2 1000).2.1 ≤ 3) ∧
    (∀ (α : Type) (op : Nat → Except JsError α) (r d a : Nat) (ds : List Nat) (e : JsError),
        op a = .error e → isRetryable e = true →
        withRetryAux op (r + 1) d a ds = withRetryAux op r (d * 2) (a + 1) (ds ++ [d])) ∧
    (∀ (α : Type) (op : Nat → Except JsError α) (r d a : Nat) (ds : List Nat) (e : JsError),
        op a = .error e → isRetryable e = false →
        withRetryAux op r d a ds = (.error e, a + 1, ds)) ∧
    (∀ (α : Type) (op : Nat → Except JsError α) (e0 e1 : JsError) (v : α),
        op 0 = .error e0 → e0.status = some 503 →
        op 1 = .error e1 → e1.status = some 503 →
        op 2 = .ok v →
        withRetry op 2 1000 = (.ok v, 3, [1000, 2000])) := by
  refine ⟨?_, ?_, ?_, ?_⟩
  · intro α op
    have := withRetryAux_invocations_le op 2 1000 0 []
    unfold withRetry
    omega
  · intro α op r d a ds e hop hre
    exact withRetryAux_retry_step op r d a ds e hop hre
  · intro α op r d a ds e hop hre
    exact withRetryAux_stop_step op r d a ds e hop hre
  · intro α op e0 e1 v h0 hs0 h1 hs1 h2
    unfold withRetry
    have s1 := withRetryAux_retry_step op 1 1000 0 [] e0 h0 (isRetryable_of_503 e0 hs0)
    norm_num at s1
    rw [s1]
    have s2 := withRetryAux_retry_step op 0 2000 1 [1000] e1 h1 (isRetryable_of_503 e1 hs1)
    norm_num at s2
    rw [s2]
    have s3 := withRetryAux_ok op 0 4000 2 [1000, 2000] v h2
    norm_num at s3
    exact s3

/-- Witness for C3: an operation failing twice with a 503 status and then
succeeding is invoked exactly 3 times with delays 1000ms, 2000ms. -/
theorem spec_C3_witness :
    withRetry (fun i => if i < 2 then .error ⟨some 503, none⟩ else .ok (7 : Nat)) 2 1000 =
      (.ok 7, 3, [1000, 2000]) :=
  spec_C3.2.2.2 Nat _ ⟨some 503, none⟩ ⟨some 503, none⟩ 7 rfl rfl rfl rfl rfl

/-- C4: on a non-retryable failure the retry executor re-raises the original
failure immediately — one invocation, no delay; on exhausting the retry
budget it re-raises the failure of the final attempt unchanged. -/
theorem spec_C4 :
    (∀ (α : Type) (op : Nat → Except JsError α) (r d : Nat) (e : JsError),
        op 0 = .error e → isRetryable e = false →
        withRetry op r d = (.error e, 1, [])) ∧
    (∀ (α : Type) (op : Nat → Except JsError α) (d : Nat) (e0 e1 e2 : JsError),
        op 0 = .error e0 → isRetryable e0 = true →
        op 1 = .error e1 → isRetryable e1 = true →
        op 2 = .error e2 →
        withRetry op 2 d = (.error e2, 3, [d, d * 2])) := by
  constructor
  · intro α op r d e hop hre
    unfold withRetry
    exact withRetryAux_stop_step op r d 0 [] e hop hre
  · intro α op d e0 e1 e2 h0 hr0 h1 hr1 h2
    unfold withRetry
    have s1 := withRetryAux_retry_step op 1 d 0 [] e0 h0 hr0
    norm_num at s1
    rw [s1]
    have s2 := withRetryAux_retry_step op 0 (d * 2) 1 [d] e1 h1 hr1
    norm_num at s2
    rw [s2]
    have s3 := withRetryAux_exhausted op (d * 2 * 2) 2 [d, d * 2] e2 h2
    norm_num at s3
    exact s3

/-- Witness for C4: a 400-status failure is re-raised at once, after a single
invocation and with no delay. -/
theorem spec_C4_witness :
    withRetry (fun _ => .error ⟨some 400, none⟩ : Nat → Except JsError Nat) 2 1000 =
      (.error ⟨some 400, none⟩, 1, []) :=
  spec_C4.1 Nat _ 2 1000 ⟨some 400, none⟩ rfl (by decide)

/-! ## Claims about the session boundary -/

/-- C1: no internal failure escapes the session boundary: `sendMessage` and
`getColdStart` always resolve with a `RecommendationResponse` (whose summary
is a string and whose recommendations are a list, by the type), and
`getMovieSynopsis` always resolves to a string, yielding the fixed sentinel
on any failure of its model call. -/
theorem spec_C1 :
    (∀ (env : GeminiEnv) (message : Str) (language : Language),
        ∃ r : RecommendationResponse, sendMessage env message language = .ok r) ∧
    (∀ (env : GeminiEnv) (language : Language),
        ∃ r : RecommendationResponse, (getColdStart env language).1 = .ok r) ∧
    (∀ (env : GeminiEnv) (title year : Str) (language : Language),
        ∃ s : Str, getMovieSynopsis env title year language = .ok s) ∧
    (∀ (env : GeminiEnv) (title year : Str) (language : Language) (e : JsError),
        env.synopsisCall = .error e →
        getMovieSynopsis env title year language = .ok synopsisUnavailable) := by
  refine ⟨sendMessage_isOk, ?_, getMovieSynopsis_isOk, ?_⟩
  · intro env language
    obtain ⟨r, _, hcs⟩ := getColdStart_eq env language
    exact ⟨r, by rw [hcs]⟩
  · intro env title year language e he
    simp [getMovieSynopsis, he]

/-- Witness for C1: with a failing synopsis call the sentinel is returned. -/
theorem spec_C1_witness :
    getMovieSynopsis
      { chatInit := .ok (), attempts := fun _ => .error ⟨none, none⟩,
        jsonParse := fun _ => none, synopsisCall := .error ⟨none, none⟩ }
      [] [] .English = .ok synopsisUnavailable :=
  spec_C1.2.2.2 _ [] [] .English ⟨none, none⟩ rfl

/-- C10: `getColdStart language` resolves to exactly the value of the single
underlying `sendMessage coldStartPrompt language` call: since `sendMessage`
never rejects, the retry wrapper sees a success on the first attempt, performs
no retry and no delay, and `getColdStart` never rejects. -/
theorem spec_C10 :
    ∀ (env : GeminiEnv) (language : Language),
      ∃ r : RecommendationResponse,
        sendMessage env coldStartPrompt language = .ok r ∧
        getColdStart env language = (.ok r, 1, []) :=
  getColdStart_eq

/-! ## Claim about the parse fallback -/

/-- C2: when the extracted string fails to parse as JSON, the fallback result
has an empty recommendation list and a summary equal to the input when it is
at most 500 characters, and to the first 500 characters followed by `...`
(503 characters in total) when longer; the failure is consumed locally. -/
theorem spec_C2 :
    ∀ (jsonParse : Str → Option RecommendationResponse) (s : Str),
      jsonParse s = none →
      (parseRecommendation jsonParse s).recommendations = [] ∧
      (s.length ≤ 500 → (parseRecommendation jsonParse s).summary = s) ∧
      (500 < s.length →
          (parseRecommendation jsonParse s).summary = s.take 500 ++ "...".toList ∧
          (parseRecommendation jsonParse s).summary.length = 503 ∧
          (parseRecommendation jsonParse s).summary.drop 500 = "...".toList) := by
  intro jp s h
  have hlen : 500 < s.length → (s.take 500).length = 500 := by
    intro hgt
    rw [List.length_take]
    omega
  refine ⟨by simp [parseRecommendation, h], ?_, ?_⟩
  · intro hle
    have hc : ¬ 500 < s.length := by omega
    simp [parseRecommendation, h, hc]
  · intro hgt
    refine ⟨by simp [parseRecommendation, h, hgt], ?_, ?_⟩
    · simp [parseRecommendation, h, hgt, List.length_append, List.length_take]
      omega
    · have hdrop := List.drop_left (s.take 500) ("...".toList)
      rw [hlen hgt] at hdrop
      simp only [parseRecommendation, h, if_pos hgt]
      exact hdrop

/-- Witness for C2: a 600-character non-JSON input yields a 503-character
summary ending in an ellipsis. -/
theorem spec_C2_witness :
    (parseRecommendation (fun _ => none) (List.replicate 600 'a')).summary.length = 503 ∧
    (parseRecommendation (fun _ => none) (List.replicate 600 'a')).summary.drop 500 =
      "...".toList := by
  have h := spec_C2 (fun _ => none) (List.replicate 600 'a') rfl
  have hgt : 500 < (List.replicate 600 'a').length := by
    rw [List.length_replicate]
    omega
  exact ⟨(h.2.2 hgt).2.1, (h.2.2 hgt).2.2⟩

/-! ## Claim about the error translator -/

/-- C7: every caught failure is classified into exactly one of two cases —
a message containing a safety/blocked marker yields the safety-specific
localized string, anything else the default localized string — the
localization table has an entry for every requested language (so the
base-language fallback clause of the claim never fires, stated here as a
vacuously satisfied implication), and the degraded result carries the
localized string as summary with an empty recommendation list. -/
theorem spec_C7 :
    ∀ (e : JsError) (lang : Language),
      (classifyError e = .safety ∨ classifyError e = .default) ∧
      ((msgIncludes e ("SAFETY".toList) || msgIncludes e ("BLOCKED".toList)) = true ↔
          classifyError e = .safety) ∧
      (∃ s : Str,
          lookupLang (errorMap (classifyError e)) lang = some s ∧
          errorResponse e lang =
            { summary := s, clarifyingQuestions := none,
              recommendations := [], sources := none }) ∧
      (lookupLang (errorMap (classifyError e)) lang = none →
          errorSummary e lang = (lookupLang (errorMap (classifyError e)) .English).getD []) := by
  intro e lang
  have hex : ∃ s : Str,
      lookupLang (errorMap (classifyError e)) lang = some s ∧
      errorResponse e lang =
        { summary := s, clarifyingQuestions := none,
          recommendations := [], sources := none } := by
    cases ht : classifyError e <;> cases lang <;>
      exact ⟨_, rfl, by simp [errorResponse, errorSummary, ht]; rfl⟩
  refine ⟨?_, ?_, hex, ?_⟩
  · cases hc : (msgIncludes e ("SAFETY".toList) || msgIncludes e ("BLOCKED".toList)) with
    | true => exact Or.inl (by simp only [classifyError]; rw [if_pos hc])
    | false =>
      refine Or.inr ?_
      simp only [classifyError]
      rw [if_neg (by rw [hc]; exact Bool.false_ne_true)]
  · constructor
    · intro hc
      simp only [classifyError]
      rw [if_pos hc]
    · intro hsaf
      cases hc : (msgIncludes e ("SAFETY".toList) || msgIncludes e ("BLOCKED".toList)) with
      | true => rfl
      | false =>
        simp only [classifyError] at hsaf
        rw [if_neg (by rw [hc]; exact Bool.false_ne_true)] at hsaf
        cases hsaf
  · intro hnone
    obtain ⟨s, hs, _⟩ := hex
    rw [hs] at hnone
    cases hnone

/-- Witness for C7: a SAFETY-marked failure yields the Hindi safety string
as the summary of a degraded result with empty recommendations. -/
theorem spec_C7_witness :
    errorResponse ⟨none, some ("SAFETY block".toList)⟩ .Hindi =
      { summary := ("सुरक्षा दिशानिर्देशों के कारण मैं उस विषय पर सुझाव नहीं दे सकता। कृपया कोई अन्य विषय आज़माएं।".toList),
        clarifyingQuestions := none, recommendations := [], sources := none } := by
  obtain ⟨s, hs, hr⟩ := (spec_C7 ⟨none, some ("SAFETY block".toList)⟩ .Hindi).2.2.1
  have hc : classifyError ⟨none, some ("SAFETY block".toList)⟩ = .safety := by decide
  rw [hc] at hs
  have : s = ("सुरक्षा दिशानिर्देशों के कारण मैं उस विषय पर सुझाव नहीं दे सकता। कृपया कोई अन्य विषय आज़माएं।".toList) := by
    have hv : lookupLang (errorMap .safety) .Hindi =
        some ("सुरक्षा दिशानिर्देशों के कारण मैं उस विषय पर सुझाव नहीं दे सकता। कृपया कोई अन्य विषय आज़माएं।".toList) := by
      rfl
    rw [hv] at hs
    exact (Option.some.injEq _ _).mp hs.symm
  rw [hr, this]

/-! ## Claim about the query history -/

/-- C9 (amended): adding a query places the new entry first with the query
text stored verbatim, caps the list at 20 entries, and the carried-over tail
is exactly the previous entries whose lowercased (untrimmed) query text
differs from the lowercased trimmed new query; in particular every previous
entry whose lowercased query equals the lowercased trimmed new query is
removed.  (The code compares the existing entries untrimmed, so equality
under the case-insensitive trimmed key alone does not imply removal; see the
counterexample.) -/
theorem spec_C9 :
    ∀ (q : Str) (hist : List HistoryItem) (now : Nat),
      (addToHistory q hist now).head? = some ⟨q, now⟩ ∧
      (addToHistory q hist now).length ≤ 20 ∧
      (addToHistory q hist now).tail =
        (hist.filter (fun h => !(toLowerStr h.query == toLowerStr (trimStr q)))).take 19 ∧
      (∀ h ∈ hist, toLowerStr h.query = toLowerStr (trimStr q) →
          h ∉ (addToHistory q hist now).tail) := by
  intro q hist now
  have hshape : addToHistory q hist now =
      (⟨q, now⟩ : HistoryItem) ::
        (hist.filter (fun h => !(toLowerStr h.query == toLowerStr (trimStr q)))).take 19 := by
    unfold addToHistory
    rfl
  refine ⟨by rw [hshape]; rfl, ?_, by rw [hshape]; rfl, ?_⟩
  · rw [hshape]
    have := List.length_take 19
      (hist.filter (fun h => !(toLowerStr h.query == toLowerStr (trimStr q))))
    simp only [List.length_cons]
    omega
  · intro h hmem heq hbad
    rw [hshape] at hbad
    have hbad2 : h ∈ hist.filter (fun h => !(toLowerStr h.query == toLowerStr (trimStr q))) :=
      (List.take_sublist 19 _).subset (by simpa using hbad)
    have := (List.mem_filter.mp hbad2).2
    simp [heq] at this

/-- Counterexample for C9: an existing entry whose query equals the new query
under the case-insensitive trimmed key (here `" foo "` vs `"foo"`) is NOT
removed, because the code lowercases but does not trim the stored entries. -/
theorem spec_C9_counterexample :
    toLowerStr (trimStr (" foo ".toList)) = toLowerStr (trimStr ("foo".toList)) ∧
    addToHistory ("foo".toList) [⟨" foo ".toList, 1⟩] 2 =
      [⟨"foo".toList, 2⟩, ⟨" foo ".toList, 1⟩] ∧
    (⟨" foo ".toList, 1⟩ : HistoryItem) ∈ addToHistory ("foo".toList) [⟨" foo ".toList, 1⟩] 2 := by
  refine ⟨by decide, by decide, by decide⟩

/-- Witness for C9: applying the amended statement at a concrete history, the
entry `"A"` (equal to the new query `"a"` under the lowercased comparison) is
absent from the carried-over tail. -/
theorem spec_C9_witness :
    (⟨"A".toList, 0⟩ : HistoryItem) ∉ (addToHistory ("a".toList) [⟨"A".toList, 0⟩] 5).tail :=
  (spec_C9 ("a".toList) [⟨"A".toList, 0⟩] 5).2.2.2 ⟨"A".toList, 0⟩ (by simp) (by decide)

/-! ## Helper lemmas about the source deduplicator -/

/-- The key column of the insertion-ordered map. -/
def keysOf (m : List (Str × Source)) : List Str := m.map (fun p => p.1)

/-- `Map.prototype.get`-style lookup: the first (and, keys being unique, the
only) entry with the given key. -/
def lookupKey (m : List (Str × Source)) (k : Str) : Option (Str × Source) :=
  m.find? (fun p => p.1 == k)

theorem collectSources_go (chunks : List GroundingChunk) :
    ∀ acc : List Source,
      chunks.foldl (fun acc c =>
        match chunkSource c with
        | some s => acc ++ [s]
        | none => acc) acc = acc ++ chunks.filterMap chunkSource := by
  induction chunks with
  | nil => intro acc; simp
  | cons c cs ih =>
    intro acc
    cases h : chunkSource c with
    | some s => simp [h, ih (acc ++ [s]), List.filterMap_cons]
    | none => simp [h, ih acc, List.filterMap_cons]

theorem collectSources_eq_filterMap (chunks : List GroundingChunk) :
    collectSources chunks = chunks.filterMap chunkSource := by
  have := collectSources_go chunks []
  simpa [collectSources] using this

theorem any_key_iff (m : List (Str × Source)) (k : Str) :
    m.any (fun p => p.1 == k) = true ↔ k ∈ keysOf m := by
  rw [List.any_eq_true]
  constructor
  · rintro ⟨p, hp, hbeq⟩
    exact List.mem_map.mpr ⟨p, hp, beq_iff_eq.mp hbeq⟩
  · intro hk
    obtain ⟨p, hp, hpk⟩ := List.mem_map.mp hk
    exact ⟨p, hp, beq_iff_eq.mpr hpk⟩

theorem keysOf_jsMapSet (m : List (Str × Source)) (k : Str) (v : Source) :
    keysOf (jsMapSet m k v) = if k ∈ keysOf m then keysOf m else keysOf m ++ [k] := by
  unfold jsMapSet
  by_cases hany : (m.any (fun p => p.1 == k)) = true
  · rw [if_pos hany, if_pos ((any_key_iff m k).mp hany)]
    unfold keysOf
    rw [List.map_map]
    apply List.map_congr_left
    intro p _
    by_cases hpk : (p.1 == k) = true
    · show ((if p.1 == k then (k, v) else p)).1 = p.1
      rw [if_pos hpk]
      exact (beq_iff_eq.mp hpk).symm
    · show ((if p.1 == k then (k, v) else p)).1 = p.1
      rw [if_neg hpk]
  · rw [if_neg hany, if_neg (fun hmem => hany ((any_key_iff m k).mpr hmem))]
    unfold keysOf
    rw [List.map_append]
    rfl

theorem find?_update_eqk (k : Str) (v : Source) :
    ∀ m : List (Str × Source),
      ((m.map (fun p => if p.1 == k then (k, v) else p)).find? (fun p => p.1 == k)) =
        (m.find? (fun p => p.1 == k)).map (fun _ => (k, v)) := by
  intro m
  induction m with
  | nil => rfl
  | cons p ps ih =>
    cases hpk : (p.1 == k) with
    | true =>
      rw [List.map_cons, if_pos hpk, List.find?_cons, List.find?_cons, hpk]
      have hkk : (((k, v) : Str × Source).1 == k) = true := beq_self_eq_true k
      rw [hkk]
      rfl
    | false =>
      rw [List.map_cons, if_neg (by rw [hpk]; exact Bool.false_ne_true),
        List.find?_cons, List.find?_cons, hpk]
      exact ih

theorem find?_update_ne (k : Str) (v : Source) (u : Str) (hu : u ≠ k) :
    ∀ m : List (Str × Source),
      ((m.map (fun p => if p.1 == k then (k, v) else p)).find? (fun p => p.1 == u)) =
        m.find? (fun p => p.1 == u) := by
  have hku : (k == u) = false := by
    cases hb : (k == u) with
    | false => rfl
    | true => exact absurd (beq_iff_eq.mp hb).symm hu
  intro m
  induction m with
  | nil => rfl
  | cons p ps ih =>
    cases hpk : (p.1 == k) with
    | true =>
      have hp1 : p.1 = k := beq_iff_eq.mp hpk
      have hpu : (p.1 == u) = false := by rw [hp1]; exact hku
      have hku2 : (((k, v) : Str × Source).1 == u) = false := hku
      rw [List.map_cons, if_pos hpk, List.find?_cons, List.find?_cons, hku2, hpu]
      exact ih
    | false =>
      cases hpu : (p.1 == u) with
      | true =>
        rw [List.map_cons, if_neg (by rw [hpk]; exact Bool.false_ne_true),
          List.find?_cons, List.find?_cons, hpu]
      | false =>
        rw [List.map_cons, if_neg (by rw [hpk]; exact Bool.false_ne_true),
          List.find?_cons, List.find?_cons, hpu]
        exact ih

theorem lookupKey_jsMapSet (m : List (Str × Source)) (k : Str) (v : Source) (u : Str) :
    lookupKey (jsMapSet m k v) u = if u = k then some (k, v) else lookupKey m u := by
  unfold jsMapSet lookupKey
  by_cases hany : (m.any (fun p => p.1 == k)) = true
  · rw [if_pos hany]
    by_cases hu : u = k
    · subst hu
      rw [if_pos rfl, find?_update_eqk]
      obtain ⟨p, hp, hpk⟩ := List.any_eq_true.mp hany
      cases hfind : m.find? (fun p => p.1 == u) with
      | none => exact absurd hpk ((List.find?_eq_none.mp hfind) p hp)
      | some q => rfl
    · rw [if_neg hu, find?_update_ne k v u hu]
  · rw [if_neg hany, List.find?_append]
    by_cases hu : u = k
    · subst hu
      have hnone : m.find? (fun p => p.1 == u) = none := by
        rw [List.find?_eq_none]
        intro x hx hpx
        exact hany (List.any_eq_true.mpr ⟨x, hx, hpx⟩)
      rw [hnone, if_pos rfl, List.find?_cons]
      have huu : (((u, v) : Str × Source).1 == u) = true := beq_self_eq_true u
      rw [huu]
      rfl
    · rw [if_neg hu]
      have hsingle : List.find? (fun p => p.1 == u) [(k, v)] = none := by
        rw [List.find?_eq_none]
        intro x hx hpx
        have hxkv : x = (k, v) := by simpa using hx
        rw [hxkv] at hpx
        exact hu (beq_iff_eq.mp hpx).symm
      rw [hsingle]
      cases m.find? (fun p => p.1 == u) <;> rfl

theorem mapOf_append (l : List Source) (s : Source) :
    mapOf (l ++ [s]) = jsMapSet (mapOf l) s.uri s := by
  unfold mapOf
  rw [List.foldl_append]
  rfl

theorem mapOf_binding (l : List Source) : ∀ p ∈ mapOf l, p.2.uri = p.1 ∧ p.2 ∈ l := by
  induction l using List.reverseRecOn with
  | nil => intro p hp; cases hp
  | append_singleton l s ih =>
    intro p hp
    rw [mapOf_append] at hp
    unfold jsMapSet at hp
    by_cases hany : ((mapOf l).any (fun q => q.1 == s.uri)) = true
    · rw [if_pos hany] at hp
      obtain ⟨q, hq, hfq⟩ := List.mem_map.mp hp
      by_cases hqk : (q.1 == s.uri) = true
      · rw [if_pos hqk] at hfq
        rw [← hfq]
        exact ⟨rfl, by simp⟩
      · rw [if_neg hqk] at hfq
        rw [← hfq]
        obtain ⟨h1, h2⟩ := ih q hq
        exact ⟨h1, by simp [h2]⟩
    · rw [if_neg hany] at hp
      rcases List.mem_append.mp hp with hl | hr
      · obtain ⟨h1, h2⟩ := ih p hl
        exact ⟨h1, by simp [h2]⟩
      · have hps : p = (s.uri, s) := by simpa using hr
        rw [hps]
        exact ⟨rfl, by simp⟩

theorem mem_keysOf_mapOf (l : List Source) (u : Str) :
    u ∈ keysOf (mapOf l) ↔ ∃ x ∈ l, x.uri = u := by
  constructor
  · intro hu
    obtain ⟨p, hp, hpu⟩ := List.mem_map.mp hu
    obtain ⟨h1, h2⟩ := mapOf_binding l p hp
    exact ⟨p.2, h2, h1.trans hpu⟩
  · induction l using List.reverseRecOn with
    | nil => rintro ⟨x, hx, _⟩; cases hx
    | append_singleton l s ih =>
      rintro ⟨x, hx, hxu⟩
      rw [mapOf_append, keysOf_jsMapSet]
      by_cases hin : s.uri ∈ keysOf (mapOf l)
      · rw [if_pos hin]
        rcases List.mem_append.mp hx with h | h
        · exact ih ⟨x, h, hxu⟩
        · have hxs : x = s := by simpa using h
          rw [hxs] at hxu
          exact hxu ▸ hin
      · rw [if_neg hin]
        rcases List.mem_append.mp hx with h | h
        · exact List.mem_append.mpr (Or.inl (ih ⟨x, h, hxu⟩))
        · have hxs : x = s := by simpa using h
          rw [hxs] at hxu
          exact List.mem_append.mpr (Or.inr (by simp [← hxu]))

theorem keysOf_mapOf_nodup (l : List Source) : (keysOf (mapOf l)).Nodup := by
  induction l using List.reverseRecOn with
  | nil => simp [mapOf, keysOf]
  | append_singleton l s ih =>
    rw [mapOf_append, keysOf_jsMapSet]
    by_cases hin : s.uri ∈ keysOf (mapOf l)
    · rw [if_pos hin]; exact ih
    · rw [if_neg hin]
      rw [List.nodup_append]
      refine ⟨ih, List.nodup_singleton _, ?_⟩
      intro a ha hamem
      have has : a = s.uri := by simpa using hamem
      rw [has] at ha
      exact hin ha

theorem lookupKey_mapOf (l : List Source) (u : Str) :
    lookupKey (mapOf l) u =
      ((l.filter (fun s => s.uri == u)).getLast?).map (fun s => (u, s)) := by
  induction l using List.reverseRecOn with
  | nil => rfl
  | append_singleton l s ih =>
    rw [mapOf_append, lookupKey_jsMapSet, List.filter_append]
    by_cases hu : u = s.uri
    · rw [if_pos hu]
      have hsfilter : List.filter (fun t => t.uri == u) [s] = [s] := by
        have hpred : (s.uri == u) = true := beq_iff_eq.mpr hu.symm
        simp [List.filter_cons, hpred]
      rw [hsfilter, List.getLast?_append]
      simp [hu]
    · rw [if_neg hu]
      have hsfilter : List.filter (fun t => t.uri == u) [s] = [] := by
        have hpred : (s.uri == u) = false := by
          cases hb : (s.uri == u) with
          | false => rfl
          | true => exact absurd (beq_iff_eq.mp hb).symm hu
        simp [List.filter_cons, hpred]
      rw [hsfilter, List.append_nil]
      exact ih

theorem pairwise_firstIdx_mapOf (l : List Source) :
    (mapOf l).Pairwise (fun p q =>
      l.findIdx (fun x => x.uri == p.1) < l.findIdx (fun x => x.uri == q.1)) := by
  induction l using List.reverseRecOn with
  | nil => simp [mapOf]
  | append_singleton l s ih =>
    rw [mapOf_append]
    have hstay : ∀ u, u ∈ keysOf (mapOf l) →
        (l ++ [s]).findIdx (fun x => x.uri == u) = l.findIdx (fun x => x.uri == u) ∧
          l.findIdx (fun x => x.uri == u) < l.length := by
      intro u hu
      obtain ⟨x, hx, hxu⟩ := (mem_keysOf_mapOf l u).mp hu
      have hlt : l.findIdx (fun x => x.uri == u) < l.length :=
        List.findIdx_lt_length.mpr ⟨x, hx, beq_iff_eq.mpr hxu⟩
      rw [List.findIdx_append]
      exact ⟨if_pos hlt, hlt⟩
    unfold jsMapSet
    by_cases hany : ((mapOf l).any (fun q => q.1 == s.uri)) = true
    · rw [if_pos hany]
      rw [List.pairwise_map]
      refine List.Pairwise.imp_of_mem ?_ ih
      intro p q hp hq hrel
      have hkeep : ∀ r : Str × Source, r ∈ mapOf l →
          ((if r.1 == s.uri then (s.uri, s) else r)).1 = r.1 := by
        intro r _
        by_cases hrk : (r.1 == s.uri) = true
        · rw [if_pos hrk]
          exact (beq_iff_eq.mp hrk).symm
        · rw [if_neg hrk]
      rw [hkeep p hp, hkeep q hq]
      have hpkey : p.1 ∈ keysOf (mapOf l) := List.mem_map.mpr ⟨p, hp, rfl⟩
      have hqkey : q.1 ∈ keysOf (mapOf l) := List.mem_map.mpr ⟨q, hq, rfl⟩
      rw [(hstay p.1 hpkey).1, (hstay q.1 hqkey).1]
      exact hrel
    · rw [if_neg hany]
      rw [List.pairwise_append]
      have hnew : (l ++ [s]).findIdx (fun x => x.uri == s.uri) = l.length := by
        have hnomatch : ∀ x ∈ l, (x.uri == s.uri) = false := by
          intro x hx
          cases hb : (x.uri == s.uri) with
          | false => rfl
          | true =>
            have hmem : s.uri ∈ keysOf (mapOf l) :=
              (mem_keysOf_mapOf l s.uri).mpr ⟨x, hx, beq_iff_eq.mp hb⟩
            exact absurd ((any_key_iff (mapOf l) s.uri).mpr hmem) hany
        have hidx : l.findIdx (fun x => x.uri == s.uri) = l.length :=
          List.findIdx_eq_length.mpr hnomatch
        rw [List.findIdx_append, hidx, if_neg (lt_irrefl _)]
        have hzero : List.findIdx (fun x => x.uri == s.uri) [s] = 0 := by
          simp [List.findIdx_cons]
        rw [hzero]
        omega
      refine ⟨?_, List.pairwise_singleton _ _, ?_⟩
      · refine List.Pairwise.imp_of_mem ?_ ih
        intro p q hp hq hrel
        have hpkey : p.1 ∈ keysOf (mapOf l) := List.mem_map.mpr ⟨p, hp, rfl⟩
        have hqkey : q.1 ∈ keysOf (mapOf l) := List.mem_map.mpr ⟨q, hq, rfl⟩
        rw [(hstay p.1 hpkey).1, (hstay q.1 hqkey).1]
        exact hrel
      · intro a ha b hb
        have hbs : b = (s.uri, s) := by simpa using hb
        rw [hbs]
        have hakey : a.1 ∈ keysOf (mapOf l) := List.mem_map.mpr ⟨a, ha, rfl⟩
        rw [(hstay a.1 hakey).1, hnew]
        exact (hstay a.1 hakey).2

theorem find?_self_of_nodup :
    ∀ m : List (Str × Source), (keysOf m).Nodup → ∀ p ∈ m, lookupKey m p.1 = some p := by
  intro m
  induction m with
  | nil => intro _ p hp; cases hp
  | cons q qs ih =>
    intro hnd p hp
    have hnd2 : (q.1 :: keysOf qs).Nodup := hnd
    rcases List.mem_cons.mp hp with heq | hmem
    · rw [heq]
      unfold lookupKey
      rw [List.find?_cons]
      have hqq : (q.1 == q.1) = true := beq_self_eq_true q.1
      rw [hqq]
    · have hq1 : (q.1 == p.1) = false := by
        cases hb : (q.1 == p.1) with
        | false => rfl
        | true =>
          exact absurd
            (by rw [beq_iff_eq.mp hb]; exact List.mem_map.mpr ⟨p, hmem, rfl⟩)
            (List.nodup_cons.mp hnd2).1
      unfold lookupKey
      rw [List.find?_cons, hq1]
      exact ih (List.nodup_cons.mp hnd2).2 p hmem

theorem dedupSources_pairwise_ne (l : List Source) :
    (dedupSources l).Pairwise (fun s t => s.uri ≠ t.uri) := by
  unfold dedupSources
  rw [List.pairwise_map]
  have hnodup : List.Pairwise (fun a b => a ≠ b) (keysOf (mapOf l)) := keysOf_mapOf_nodup l
  unfold keysOf at hnodup
  rw [List.pairwise_map] at hnodup
  refine List.Pairwise.imp_of_mem ?_ hnodup
  intro p q hp hq hne
  rw [(mapOf_binding l p hp).1, (mapOf_binding l q hq).1]
  exact hne

theorem dedupSources_last_wins (l : List Source) (s : Source) (hs : s ∈ dedupSources l) :
    (l.filter (fun t => t.uri == s.uri)).getLast? = some s := by
  unfold dedupSources at hs
  obtain ⟨p, hp, hps⟩ := List.mem_map.mp hs
  have hself := find?_self_of_nodup (mapOf l) (keysOf_mapOf_nodup l) p hp
  have hlast := lookupKey_mapOf l p.1
  rw [hself] at hlast
  obtain ⟨x, hx, hxp⟩ := Option.map_eq_some'.mp hlast.symm
  have hx2 : x = p.2 := congrArg Prod.snd hxp
  have hbind := (mapOf_binding l p hp).1
  rw [← hps, hbind, ← hx2]
  exact hx

theorem dedupSources_firstSeen (l : List Source) :
    (dedupSources l).Pairwise (fun s t =>
      l.findIdx (fun x => x.uri == s.uri) < l.findIdx (fun x => x.uri == t.uri)) := by
  unfold dedupSources
  rw [List.pairwise_map]
  refine List.Pairwise.imp_of_mem ?_ (pairwise_firstIdx_mapOf l)
  intro p q hp hq hrel
  rw [(mapOf_binding l p hp).1, (mapOf_binding l q hq).1]
  exact hrel

theorem jsMapSet_length_le (m : List (Str × Source)) (k : Str) (v : Source) :
    (jsMapSet m k v).length ≤ m.length + 1 := by
  unfold jsMapSet
  by_cases hany : (m.any (fun p => p.1 == k)) = true
  · rw [if_pos hany, List.length_map]
    omega
  · rw [if_neg hany, List.length_append]
    simp

theorem mapOf_length_le (l : List Source) : (mapOf l).length ≤ l.length := by
  induction l using List.reverseRecOn with
  | nil => simp [mapOf]
  | append_singleton l s ih =>
    rw [mapOf_append]
    have := jsMapSet_length_le (mapOf l) s.uri s
    rw [List.length_append]
    simp only [List.length_singleton]
    omega

theorem dedupSources_length_le (l : List Source) : (dedupSources l).length ≤ l.length := by
  unfold dedupSources
  rw [List.length_map]
  exact mapOf_length_le l

/-! ## Claim about the source deduplicator -/

/-- C6 (as stated by the spec): fragments missing a URI or a title are
dropped; the rest collapse by URI with the last occurrence winning, output in
first-insertion order; output size at most input size; and the concrete
example of the spec. -/
theorem spec_C6 :
    (dedupSources
        [⟨("A1".toList), ("a".toList)⟩, ⟨("B".toList), ("b".toList)⟩,
         ⟨("A2".toList), ("a".toList)⟩] =
      [⟨("A2".toList), ("a".toList)⟩, ⟨("B".toList), ("b".toList)⟩]) ∧
    (∀ w : WebInfo, w.uri = none ∨ w.title = none → chunkSource ⟨some w⟩ = none) ∧
    (chunkSource ⟨none⟩ = none) ∧
    (∀ (pre post : List GroundingChunk) (c : GroundingChunk), chunkSource c = none →
        collectSources (pre ++ c :: post) = collectSources (pre ++ post)) ∧
    (∀ chunks : List GroundingChunk,
        (dedupSources (collectSources chunks)).length ≤ chunks.length) ∧
    (∀ sources : List Source,
        (dedupSources sources).Pairwise (fun s t => s.uri ≠ t.uri)) ∧
    (∀ (sources : List Source) (s : Source), s ∈ dedupSources sources →
        (sources.filter (fun t => t.uri == s.uri)).getLast? = some s) ∧
    (∀ sources : List Source,
        (dedupSources sources).Pairwise (fun s t =>
          sources.findIdx (fun x => x.uri == s.uri) <
            sources.findIdx (fun x => x.uri == t.uri))) := by
  refine ⟨by decide, ?_, rfl, ?_, ?_, dedupSources_pairwise_ne, dedupSources_last_wins,
    dedupSources_firstSeen⟩
  · intro w hw
    rcases hw with h | h <;> ·
      cases hu : w.uri <;> cases ht : w.title <;>
        simp_all [chunkSource]
  · intro pre post c hc
    rw [collectSources_eq_filterMap, collectSources_eq_filterMap,
      List.filterMap_append, List.filterMap_append, List.filterMap_cons, hc]
  · intro chunks
    calc (dedupSources (collectSources chunks)).length
        ≤ (collectSources chunks).length := dedupSources_length_le _
      _ ≤ chunks.length := by
          rw [collectSources_eq_filterMap]
          exact List.length_filterMap_le _ _

/-- Witness for C6: a chunk with a missing title is dropped from the
collected sources. -/
theorem spec_C6_witness :
    collectSources
        ([] ++ (⟨some ⟨some ("a".toList), none⟩⟩ : GroundingChunk) ::
          [⟨some ⟨some ("b".toList), some ("B".toList)⟩⟩]) =
      collectSources ([] ++ [⟨some ⟨some ("b".toList), some ("B".toList)⟩⟩]) :=
  spec_C6.2.2.2.1 [] [⟨some ⟨some ("b".toList), some ("B".toList)⟩⟩]
    ⟨some ⟨some ("a".toList), none⟩⟩ rfl

/-! ## Helper lemmas about the stable comparator sort -/

theorem mem_insertOrdered {α : Type} (lt : α → α → Bool) (x a : α) :
    ∀ l : List α, a ∈ insertOrdered lt x l ↔ a = x ∨ a ∈ l := by
  intro l
  induction l with
  | nil => simp [insertOrdered]
  | cons y ys ih =>
    unfold insertOrdered
    by_cases h : lt y x = true
    · rw [if_pos h]
      constructor
      · intro ha
        rcases List.mem_cons.mp ha with heq | hmem
        · exact Or.inr (List.mem_cons.mpr (Or.inl heq))
        · rcases ih.mp hmem with h1 | h2
          · exact Or.inl h1
          · exact Or.inr (List.mem_cons.mpr (Or.inr h2))
      · intro ha
        rcases ha with heq | hmem
        · exact List.mem_cons.mpr (Or.inr (ih.mpr (Or.inl heq)))
        · rcases List.mem_cons.mp hmem with h1 | h2
          · exact List.mem_cons.mpr (Or.inl h1)
          · exact List.mem_cons.mpr (Or.inr (ih.mpr (Or.inr h2)))
    · rw [if_neg h]
      constructor
      · intro ha
        exact List.mem_cons.mp ha
      · intro ha
        rcases ha with heq | hmem
        · exact List.mem_cons.mpr (Or.inl heq)
        · exact List.mem_cons.mpr (Or.inr hmem)

theorem pairwise_insertOrdered {α : Type} (lt : α → α → Bool) (R : α → α → Prop)
    (h1 : ∀ a b, lt a b = true → R a b)
    (h2 : ∀ a b, lt a b = false → R b a)
    (htrans : ∀ a b c, R a b → R b c → R a c)
    (x : α) : ∀ l : List α, l.Pairwise R → (insertOrdered lt x l).Pairwise R := by
  intro l
  induction l with
  | nil => intro _; simp [insertOrdered]
  | cons y ys ih =>
    intro hp
    obtain ⟨hy, hys⟩ := List.pairwise_cons.mp hp
    unfold insertOrdered
    cases h : lt y x with
    | true =>
      rw [if_pos rfl]
      refine List.pairwise_cons.mpr ⟨?_, ih hys⟩
      intro b hb
      rcases (mem_insertOrdered lt x b ys).mp hb with heq | hbys
      · exact heq ▸ h1 y x h
      · exact hy b hbys
    | false =>
      rw [if_neg Bool.false_ne_true]
      refine List.pairwise_cons.mpr ⟨?_, hp⟩
      intro b hb
      rcases List.mem_cons.mp hb with heq | hmem
      · exact heq ▸ h2 y x h
      · exact htrans x y b (h2 y x h) (hy b hmem)

theorem pairwise_sortByComparator {α : Type} (lt : α → α → Bool) (R : α → α → Prop)
    (h1 : ∀ a b, lt a b = true → R a b)
    (h2 : ∀ a b, lt a b = false → R b a)
    (htrans : ∀ a b c, R a b → R b c → R a c) :
    ∀ l : List α, (sortByComparator lt l).Pairwise R := by
  intro l
  induction l with
  | nil => simp [sortByComparator]
  | cons x xs ih =>
    show (insertOrdered lt x (sortByComparator lt xs)).Pairwise R
    exact pairwise_insertOrdered lt R h1 h2 htrans x _ ih

theorem perm_insertOrdered {α : Type} (lt : α → α → Bool) (x : α) :
    ∀ l : List α, (insertOrdered lt x l).Perm (x :: l) := by
  intro l
  induction l with
  | nil => exact List.Perm.refl _
  | cons y ys ih =>
    unfold insertOrdered
    by_cases h : lt y x = true
    · rw [if_pos h]
      exact (List.Perm.cons y ih).trans (List.Perm.swap x y ys)
    · rw [if_neg h]

theorem perm_sortByComparator {α : Type} (lt : α → α → Bool) :
    ∀ l : List α, (sortByComparator lt l).Perm l := by
  intro l
  induction l with
  | nil => exact List.Perm.refl _
  | cons x xs ih =>
    show (insertOrdered lt x (sortByComparator lt xs)).Perm (x :: xs)
    exact (perm_insertOrdered lt x _).trans (List.Perm.cons x ih)

theorem sortNewest_pairwise (l : List Movie) :
    (sortByComparator (fun a b => decide (yearKey b < yearKey a)) l).Pairwise
      (fun a b => yearKey b ≤ yearKey a) :=
  pairwise_sortByComparator (fun a b => decide (yearKey b < yearKey a))
    (fun a b => yearKey b ≤ yearKey a)
    (fun _ _ h => le_of_lt (of_decide_eq_true h))
    (fun _ _ h => le_of_not_lt (of_decide_eq_false h))
    (fun _ _ _ hab hbc => le_trans hbc hab)
    l

theorem sortOldest_pairwise (l : List Movie) :
    (sortByComparator (fun a b => decide (yearKey a < yearKey b)) l).Pairwise
      (fun a b => yearKey a ≤ yearKey b) :=
  pairwise_sortByComparator (fun a b => decide (yearKey a < yearKey b))
    (fun a b => yearKey a ≤ yearKey b)
    (fun _ _ h => le_of_lt (of_decide_eq_true h))
    (fun _ _ h => le_of_not_lt (of_decide_eq_false h))
    (fun _ _ _ hab hbc => le_trans hab hbc)
    l

theorem mem_sortAny (sb : SortBy) (l : List Movie) (m : Movie)
    (hm : m ∈ (match sb with
      | SortBy.default => l
      | SortBy.newest => sortByComparator (fun a b => decide (yearKey b < yearKey a)) l
      | SortBy.oldest => sortByComparator (fun a b => decide (yearKey a < yearKey b)) l)) :
    m ∈ l := by
  cases sb with
  | default => exact hm
  | newest => exact ((perm_sortByComparator _ l).mem_iff).mp hm
  | oldest => exact ((perm_sortByComparator _ l).mem_iff).mp hm

theorem mem_genreAny (fg : GenreFilter) (l : List Movie) (m : Movie)
    (hm : m ∈ (match fg with
      | GenreFilter.all => l
      | GenreFilter.genre g => l.filter (genreMatches g))) :
    m ∈ l := by
  cases fg with
  | all => exact hm
  | genre g => exact (List.mem_filter.mp hm).1

theorem decade_of_mem (fd : DecadeFilter) (l : List Movie) (m : Movie) (hfd : fd ≠ .all)
    (hm : m ∈ (match fd with
      | DecadeFilter.all => l
      | DecadeFilter.older => l.filter (decadeMatches .older)
      | DecadeFilter.decade s => l.filter (decadeMatches (.decade s)))) :
    decadeMatches fd m = true := by
  cases fd with
  | all => exact absurd rfl hfd
  | older => exact (List.mem_filter.mp hm).2
  | decade s => exact (List.mem_filter.mp hm).2

/-! ## Claim about year sorting and decade filtering -/

/-- C8 (amended): year-based sorting and decade filtering are total functions
(nothing can throw), and a year without a parseable leading integer is
treated as the year 0: it matches no decade filter, and the year-sorted
output is ordered by the year key with unknown years collapsed to 0 — after
every positive-year movie in the newest-first order but (contrary to the
original claim) before every positive-year movie in the oldest-first order. -/
theorem spec_C8 :
    (∀ (fd : DecadeFilter) (m : Movie),
        parseIntJS (yearHeadForDecade m) = none → decadeMatches fd m = false) ∧
    (∀ m : Movie, parseIntJS (yearHeadForSort m) = none → yearKey m = 0) ∧
    (∀ (vm : ViewSel) (wl rec : List Movie) (ft : TypeFilter) (fi : IndustryFilter)
        (fd : DecadeFilter) (fg : GenreFilter),
        (displayMovies vm wl rec ft fi fd fg .newest).Pairwise
          (fun a b => yearKey b ≤ yearKey a)) ∧
    (∀ (vm : ViewSel) (wl rec : List Movie) (ft : TypeFilter) (fi : IndustryFilter)
        (fd : DecadeFilter) (fg : GenreFilter),
        (displayMovies vm wl rec ft fi fd fg .oldest).Pairwise
          (fun a b => yearKey a ≤ yearKey b)) ∧
    (∀ (vm : ViewSel) (wl rec : List Movie) (ft : TypeFilter) (fi : IndustryFilter)
        (fg : GenreFilter) (sb : SortBy) (fd : DecadeFilter) (m : Movie),
        parseIntJS (yearHeadForDecade m) = none → fd ≠ .all →
        m ∉ displayMovies vm wl rec ft fi fd fg sb) := by
  refine ⟨?_, ?_, ?_, ?_, ?_⟩
  · intro fd m h
    simp [decadeMatches, h]
  · intro m h
    simp [yearKey, h]
  · intro vm wl rec ft fi fd fg
    exact sortNewest_pairwise _
  · intro vm wl rec ft fi fd fg
    exact sortOldest_pairwise _
  · intro vm wl rec ft fi fg sb fd m hnone hfd hmem
    have hfalse : decadeMatches fd m = false := by simp [decadeMatches, hnone]
    simp only [displayMovies] at hmem
    have h3 := mem_sortAny sb _ m hmem
    have h2 := mem_genreAny fg _ m h3
    have hdec := decade_of_mem fd _ m hfd h2
    rw [hfalse] at hdec
    cases hdec

/-- Counterexample for C8: with the oldest-first sort, a movie with an
unparseable year (key 0) is placed FIRST, not last. -/
theorem spec_C8_counterexample :
    parseIntJS (yearHeadForSort (mkMovie ("abc".toList))) = none ∧
    displayMovies .recommendations [] [mkMovie ("2000".toList), mkMovie ("abc".toList)]
        .all .all .all .all .oldest =
      [mkMovie ("abc".toList), mkMovie ("2000".toList)] ∧
    mkMovie ("abc".toList) ≠ mkMovie ("2000".toList) := by
  refine ⟨by decide, by decide, by decide⟩

/-- Witness for C8: a movie with year `"n/a"` is rejected by the `older`
decade filter. -/
theorem spec_C8_witness :
    decadeMatches DecadeFilter.older (mkMovie ("n/a".toList)) = false :=
  spec_C8.1 DecadeFilter.older (mkMovie ("n/a".toList)) (by decide)

/-! ## Helper lemmas about string matching and the JSON extractor -/

theorem swStr_append_self (p r : Str) : swStr p (p ++ r) = true := by
  induction p with
  | nil => rfl
  | cons c ps ih =>
    show (c == c && swStr ps (ps ++ r)) = true
    rw [beq_self_eq_true, ih]
    rfl

theorem swStr_le_of_append (p : Str) :
    ∀ (a b : Str), swStr p (a ++ b) = true → p.length ≤ a.length → swStr p a = true := by
  induction p with
  | nil => intro a b _ _; rfl
  | cons q qs ih =>
    intro a b h hlen
    cases a with
    | nil =>
      exfalso
      simp [List.length_cons] at hlen
    | cons x xs =>
      have h2 : (q == x && swStr qs (xs ++ b)) = true := h
      rw [Bool.and_eq_true] at h2
      have hlen2 : qs.length ≤ xs.length := by
        simp [List.length_cons] at hlen
        omega
      show (q == x && swStr qs xs) = true
      rw [h2.1, ih xs b h2.2 hlen2]
      rfl

theorem mem_of_swStr_append {c : Char} (p : Str) :
    ∀ (a r : Str), swStr p (a ++ c :: r) = true → a.length < p.length → c ∈ p := by
  induction p with
  | nil =>
    intro a r _ hlen
    exact absurd hlen (by simp)
  | cons q qs ih =>
    intro a r h hlen
    cases a with
    | nil =>
      have h2 : (q == c && swStr qs r) = true := h
      rw [Bool.and_eq_true] at h2
      exact List.mem_cons.mpr (Or.inl (beq_iff_eq.mp h2.1).symm)
    | cons x xs =>
      have h2 : (q == x && swStr qs (xs ++ c :: r)) = true := h
      rw [Bool.and_eq_true] at h2
      have hlen2 : xs.length < qs.length := by
        simp [List.length_cons] at hlen
        omega
      exact List.mem_cons.mpr (Or.inr (ih xs r h2.2 hlen2))

theorem swStr_append_cancel (p : Str) : ∀ (q s : Str), swStr (p ++ q) (p ++ s) = swStr q s := by
  induction p with
  | nil => intro q s; rfl
  | cons c ps ih =>
    intro q s
    show (c == c && swStr (ps ++ q) (ps ++ s)) = swStr q s
    rw [beq_self_eq_true, ih, Bool.true_and]

theorem ewStr_append_self (p r : Str) : ewStr p (r ++ p) = true := by
  unfold ewStr
  rw [List.reverse_append]
  exact swStr_append_self _ _

theorem stripLeading_of_self (p r : Str) : stripLeading p (p ++ r) = r := by
  unfold stripLeading
  rw [if_pos (swStr_append_self p r)]
  exact List.drop_left p r

theorem stripTrailing_of_self (p r : Str) : stripTrailing p (r ++ p) = r := by
  unfold stripTrailing
  rw [if_pos (ewStr_append_self p r)]
  have hlen : (r ++ p).length - p.length = r.length := by
    rw [List.length_append]
    omega
  rw [hlen]
  exact List.take_left r p

theorem dropWhile_append_cons {p : Char → Bool} (l : Str) {c : Char} (hc : p c = false)
    (r : Str) : List.dropWhile p (l ++ c :: r) = List.dropWhile p l ++ c :: r := by
  induction l with
  | nil =>
    show List.dropWhile p (c :: r) = List.dropWhile p [] ++ c :: r
    rw [List.dropWhile_cons, if_neg (by rw [hc]; exact Bool.false_ne_true)]
    rfl
  | cons x xs ih =>
    show List.dropWhile p (x :: (xs ++ c :: r)) = List.dropWhile p (x :: xs) ++ c :: r
    by_cases hx : p x = true
    · rw [List.dropWhile_cons, List.dropWhile_cons, if_pos hx, if_pos hx]
      exact ih
    · rw [List.dropWhile_cons, List.dropWhile_cons, if_neg hx, if_neg hx]
      rfl

theorem trimStr_eq_self {s : Str} (h1 : List.dropWhile isWsChar s = s)
    (h2 : List.dropWhile isWsChar s.reverse = s.reverse) : trimStr s = s := by
  unfold trimStr
  rw [h1, h2, List.reverse_reverse]

theorem trimStr_span (pre mid post : Str) :
    trimStr (pre ++ '\x7b' :: (mid ++ '\x7d' :: post)) =
      (pre.dropWhile isWsChar) ++ '\x7b' ::
        (mid ++ '\x7d' :: ((post.reverse.dropWhile isWsChar).reverse)) := by
  unfold trimStr
  rw [dropWhile_append_cons pre (by decide) (mid ++ '\x7d' :: post)]
  have hrev : (pre.dropWhile isWsChar ++ '\x7b' :: (mid ++ '\x7d' :: post)).reverse =
      post.reverse ++ '\x7d' :: (mid.reverse ++ '\x7b' :: (pre.dropWhile isWsChar).reverse) := by
    simp [List.reverse_append]
  rw [hrev]
  rw [dropWhile_append_cons post.reverse (by decide)
    (mid.reverse ++ '\x7b' :: (pre.dropWhile isWsChar).reverse)]
  simp [List.reverse_append]

theorem idxOfChar_not_mem {c : Char} : ∀ {s : Str}, c ∉ s → idxOfChar c s = none := by
  intro s
  induction s with
  | nil => intro _; rfl
  | cons x xs ih =>
    intro h
    have hx : (x == c) = false := by
      cases hb : (x == c) with
      | false => rfl
      | true => exact absurd (List.mem_cons.mpr (Or.inl (beq_iff_eq.mp hb).symm)) h
    unfold idxOfChar
    rw [if_neg (by rw [hx]; exact Bool.false_ne_true)]
    rw [ih (fun hm => h (List.mem_cons.mpr (Or.inr hm)))]
    rfl

theorem idxOfChar_cons_self (c : Char) (s : Str) : idxOfChar c (c :: s) = some 0 := by
  unfold idxOfChar
  rw [if_pos (beq_self_eq_true c)]

theorem idxOfChar_append_some {c : Char} (i : Nat) :
    ∀ (a : Str) (s : Str), c ∉ a → idxOfChar c s = some i →
      idxOfChar c (a ++ s) = some (a.length + i) := by
  intro a
  induction a with
  | nil =>
    intro s _ hs
    rw [List.nil_append, hs]
    simp
  | cons x xs ih =>
    intro s h hs
    have hx : (x == c) = false := by
      cases hb : (x == c) with
      | false => rfl
      | true => exact absurd (List.mem_cons.mpr (Or.inl (beq_iff_eq.mp hb).symm)) h
    show idxOfChar c (x :: (xs ++ s)) = some ((x :: xs).length + i)
    unfold idxOfChar
    rw [if_neg (by rw [hx]; exact Bool.false_ne_true)]
    rw [ih s (fun hm => h (List.mem_cons.mpr (Or.inr hm))) hs]
    show some (xs.length + i + 1) = some (xs.length + 1 + i)
    congr 1
    omega

theorem idxOfChar_span (pre rest : Str) (hpre : '\x7b' ∉ pre) :
    idxOfChar '\x7b' (pre ++ '\x7b' :: rest) = some pre.length := by
  have := idxOfChar_append_some 0 pre ('\x7b' :: rest) hpre (idxOfChar_cons_self _ _)
  simpa using this

theorem lastIdxOfChar_span (pre mid post : Str) (hpost : '\x7d' ∉ post) :
    lastIdxOfChar '\x7d' (pre ++ '\x7b' :: (mid ++ '\x7d' :: post)) =
      some (pre.length + mid.length + 1) := by
  unfold lastIdxOfChar
  have hrev : (pre ++ '\x7b' :: (mid ++ '\x7d' :: post)).reverse =
      post.reverse ++ '\x7d' :: (mid.reverse ++ '\x7b' :: pre.reverse) := by
    simp [List.reverse_append]
  rw [hrev]
  have hidx : idxOfChar '\x7d' (post.reverse ++ '\x7d' :: (mid.reverse ++ '\x7b' :: pre.reverse)) =
      some (post.reverse.length + 0) :=
    idxOfChar_append_some 0 post.reverse _ (fun hm => hpost (List.mem_reverse.mp hm))
      (idxOfChar_cons_self _ _)
  rw [hidx]
  show some ((pre ++ '\x7b' :: (mid ++ '\x7d' :: post)).length - 1 - (post.reverse.length + 0)) = _
  congr 1
  simp only [List.length_append, List.length_cons, List.length_reverse]
  omega

theorem braceSlice_decomp (pre mid post : Str) (hpre : '\x7b' ∉ pre) (hpost : '\x7d' ∉ post) :
    braceSlice (pre ++ '\x7b' :: (mid ++ '\x7d' :: post)) = '\x7b' :: (mid ++ ['\x7d']) := by
  unfold braceSlice
  rw [idxOfChar_span pre _ hpre, lastIdxOfChar_span pre mid post hpost]
  show (if pre.length < pre.length + mid.length + 1 then
      ((pre ++ '\x7b' :: (mid ++ '\x7d' :: post)).take (pre.length + mid.length + 1 + 1)).drop
        pre.length
    else pre ++ '\x7b' :: (mid ++ '\x7d' :: post)) = '\x7b' :: (mid ++ ['\x7d'])
  rw [if_pos (by omega)]
  have hassoc : pre ++ '\x7b' :: (mid ++ '\x7d' :: post) =
      (pre ++ '\x7b' :: (mid ++ ['\x7d'])) ++ post := by simp
  rw [hassoc]
  have hlen : pre.length + mid.length + 1 + 1 = (pre ++ '\x7b' :: (mid ++ ['\x7d'])).length := by
    simp only [List.length_append, List.length_cons, List.length_nil]
    omega
  rw [hlen, List.take_left]
  have hlen2 : pre.length = (pre : Str).length := rfl
  exact List.drop_left pre ('\x7b' :: (mid ++ ['\x7d']))

theorem stripTrailing_span (pre mid post : Str) :
    ∃ post2 : Str,
      stripTrailing fence (pre ++ '\x7b' :: (mid ++ '\x7d' :: post)) =
        pre ++ '\x7b' :: (mid ++ '\x7d' :: post2) ∧ (∀ c, c ∈ post2 → c ∈ post) := by
  unfold stripTrailing
  by_cases he : ewStr fence (pre ++ '\x7b' :: (mid ++ '\x7d' :: post)) = true
  · rw [if_pos he]
    have h3 : 3 ≤ post.length := by
      by_contra hlt
      push_neg at hlt
      have hrev : (pre ++ '\x7b' :: (mid ++ '\x7d' :: post)).reverse =
          post.reverse ++ '\x7d' :: (mid.reverse ++ '\x7b' :: pre.reverse) := by
        simp [List.reverse_append]
      have hsw : swStr fence.reverse ((pre ++ '\x7b' :: (mid ++ '\x7d' :: post)).reverse) = true := he
      rw [hrev] at hsw
      have hmem : '\x7d' ∈ fence.reverse :=
        mem_of_swStr_append fence.reverse post.reverse _ hsw
          (by
            simp only [List.length_reverse]
            rw [show (fence : Str).length = 3 from rfl]
            omega)
      exact absurd hmem (by decide)
    refine ⟨post.take (post.length - 3), ?_, fun c hc => (List.take_sublist _ _).subset hc⟩
    have hlen : (pre ++ '\x7b' :: (mid ++ '\x7d' :: post)).length - fence.length =
        (pre ++ '\x7b' :: (mid ++ ['\x7d'])).length + (post.length - 3) := by
      simp only [List.length_append, List.length_cons, List.length_nil,
        show (fence : Str).length = 3 from rfl]
      omega
    rw [hlen]
    have hassoc : pre ++ '\x7b' :: (mid ++ '\x7d' :: post) =
        (pre ++ '\x7b' :: (mid ++ ['\x7d'])) ++ post := by simp
    rw [hassoc, List.take_append]
    simp
  · rw [if_neg he]
    exact ⟨post, rfl, fun c hc => hc⟩

theorem stripFences_span (pre mid post : Str) :
    ∃ pre2 post2 : Str,
      stripFences (pre ++ '\x7b' :: (mid ++ '\x7d' :: post)) =
        pre2 ++ '\x7b' :: (mid ++ '\x7d' :: post2) ∧
      (∀ c, c ∈ pre2 → c ∈ pre) ∧ (∀ c, c ∈ post2 → c ∈ post) := by
  unfold stripFences
  by_cases hj : swStr fenceJson (pre ++ '\x7b' :: (mid ++ '\x7d' :: post)) = true
  · rw [if_pos hj]
    have h7 : fenceJson.length ≤ pre.length := by
      by_contra hlt
      push_neg at hlt
      exact absurd (mem_of_swStr_append fenceJson pre _ hj hlt) (by decide)
    unfold stripLeading
    rw [if_pos hj, List.drop_append_of_le_length h7]
    obtain ⟨post2, heq, hsub⟩ := stripTrailing_span (pre.drop fenceJson.length) mid post
    exact ⟨pre.drop fenceJson.length, post2, heq,
      fun c hc => (List.drop_sublist _ _).subset hc, hsub⟩
  · rw [if_neg hj]
    by_cases hg : swStr fence (pre ++ '\x7b' :: (mid ++ '\x7d' :: post)) = true
    · rw [if_pos hg]
      have h3 : fence.length ≤ pre.length := by
        by_contra hlt
        push_neg at hlt
        exact absurd (mem_of_swStr_append fence pre _ hg hlt) (by decide)
      unfold stripLeading
      rw [if_pos hg, List.drop_append_of_le_length h3]
      obtain ⟨post2, heq, hsub⟩ := stripTrailing_span (pre.drop fence.length) mid post
      exact ⟨pre.drop fence.length, post2, heq,
        fun c hc => (List.drop_sublist _ _).subset hc, hsub⟩
    · rw [if_neg hg]
      exact ⟨pre, post, rfl, fun _ hc => hc, fun _ hc => hc⟩

theorem extractJSON_prose (pre mid post : Str)
    (hpre : '\x7b' ∉ pre) (hpost : '\x7d' ∉ post) :
    extractJSON (pre ++ '\x7b' :: (mid ++ '\x7d' :: post)) = '\x7b' :: (mid ++ ['\x7d']) := by
  unfold extractJSON
  rw [trimStr_span]
  obtain ⟨pre2, post2, heq, hsubpre, hsubpost⟩ :=
    stripFences_span (pre.dropWhile isWsChar) mid ((post.reverse.dropWhile isWsChar).reverse)
  rw [heq]
  apply braceSlice_decomp
  · intro h
    exact hpre ((List.dropWhile_sublist _).subset (hsubpre _ h))
  · intro h
    have h2 := hsubpost _ h
    have h3 : '\x7d' ∈ post.reverse :=
      (List.dropWhile_sublist _).subset (List.mem_reverse.mp h2)
    exact hpost (List.mem_reverse.mp h3)

theorem trim_fencedJson (inner : Str) :
    trimStr (fenceJson ++ (inner ++ fence)) = fenceJson ++ (inner ++ fence) := by
  apply trimStr_eq_self
  · show List.dropWhile isWsChar
        ('\x60' :: ("``json".toList ++ (inner ++ fence))) =
      '\x60' :: ("``json".toList ++ (inner ++ fence))
    rw [List.dropWhile_cons, if_neg (by decide)]
  · rw [List.reverse_append, List.reverse_append]
    show List.dropWhile isWsChar
        ('\x60' :: (('\x60' :: ('\x60' :: inner.reverse)) ++ fenceJson.reverse)) =
      '\x60' :: (('\x60' :: ('\x60' :: inner.reverse)) ++ fenceJson.reverse)
    rw [List.dropWhile_cons, if_neg (by decide)]

theorem extractJSON_fencedJson (inner : Str) :
    extractJSON (fenceJson ++ (inner ++ fence)) = braceSlice inner := by
  unfold extractJSON
  rw [trim_fencedJson]
  unfold stripFences
  rw [if_pos (swStr_append_self fenceJson (inner ++ fence))]
  unfold stripLeading
  rw [if_pos (swStr_append_self fenceJson (inner ++ fence)), List.drop_left]
  rw [stripTrailing_of_self fence inner]

theorem trim_fencedPlain (inner : Str) :
    trimStr (fence ++ (inner ++ fence)) = fence ++ (inner ++ fence) := by
  apply trimStr_eq_self
  · show List.dropWhile isWsChar
        ('\x60' :: (('\x60' :: ('\x60' :: [])) ++ (inner ++ fence))) =
      '\x60' :: (('\x60' :: ('\x60' :: [])) ++ (inner ++ fence))
    rw [List.dropWhile_cons, if_neg (by decide)]
  · rw [List.reverse_append, List.reverse_append]
    show List.dropWhile isWsChar
        ('\x60' :: (('\x60' :: ('\x60' :: inner.reverse)) ++ fence.reverse)) =
      '\x60' :: (('\x60' :: ('\x60' :: inner.reverse)) ++ fence.reverse)
    rw [List.dropWhile_cons, if_neg (by decide)]

theorem swStr_fenceJson_of_plain (inner : Str)
    (hjson : swStr ("json".toList) inner = false) :
    swStr fenceJson (fence ++ (inner ++ fence)) = false := by
  cases hb : swStr fenceJson (fence ++ (inner ++ fence)) with
  | false => rfl
  | true =>
    exfalso
    have hb2 : swStr (fence ++ "json".toList) (fence ++ (inner ++ fence)) = true := hb
    rw [swStr_append_cancel] at hb2
    by_cases hlen : ("json".toList : Str).length ≤ inner.length
    · have := swStr_le_of_append ("json".toList) inner fence hb2 hlen
      rw [hjson] at this
      exact Bool.false_ne_true this
    · push_neg at hlen
      have hb3 : swStr ("json".toList) (inner ++ '\x60' :: ['\x60', '\x60']) = true := hb2
      have hmem := mem_of_swStr_append ("json".toList) inner ['\x60', '\x60'] hb3 hlen
      exact absurd hmem (by decide)

theorem extractJSON_fencedPlain (inner : Str)
    (hjson : swStr ("json".toList) inner = false) :
    extractJSON (fence ++ (inner ++ fence)) = braceSlice inner := by
  unfold extractJSON
  rw [trim_fencedPlain]
  unfold stripFences
  rw [if_neg (by rw [swStr_fenceJson_of_plain inner hjson]; exact Bool.false_ne_true)]
  rw [if_pos (swStr_append_self fence (inner ++ fence))]
  unfold stripLeading
  rw [if_pos (swStr_append_self fence (inner ++ fence)), List.drop_left]
  rw [stripTrailing_of_self fence inner]

theorem braceSlice_no_brace (inner : Str) (h : '\x7b' ∉ inner) : braceSlice inner = inner := by
  unfold braceSlice
  rw [idxOfChar_not_mem h]
  cases lastIdxOfChar '\x7d' inner <;> rfl

/-! ## Claim about the JSON extractor -/

/-- C5 (amended): `extractJSON` trims, strips fence markers, and then applies
the brace-span step; for every fenced input the fences are removed and the
brace-span step is applied to the exact inner content (so the inner content
itself is returned only when it contains no opening brace — contrary to the
original claim, which promised the inner content verbatim in every case); a
generic fence whose inner content does not start with the `json` tag behaves
the same; and for every input whose single `\x7b...\x7d` span is surrounded
by brace-free prose, exactly that span is returned. -/
theorem spec_C5 :
    (∀ text : Str, extractJSON text = braceSlice (stripFences (trimStr text))) ∧
    (∀ inner : Str, extractJSON (fenceJson ++ (inner ++ fence)) = braceSlice inner) ∧
    (∀ inner : Str, '\x7b' ∉ inner → extractJSON (fenceJson ++ (inner ++ fence)) = inner) ∧
    (∀ inner : Str, swStr ("json".toList) inner = false →
        extractJSON (fence ++ (inner ++ fence)) = braceSlice inner) ∧
    (∀ pre mid post : Str, '\x7b' ∉ pre → '\x7d' ∉ post →
        extractJSON (pre ++ '\x7b' :: (mid ++ '\x7d' :: post)) = '\x7b' :: (mid ++ ['\x7d'])) := by
  refine ⟨fun _ => rfl, extractJSON_fencedJson, ?_, extractJSON_fencedPlain, extractJSON_prose⟩
  intro inner h
  rw [extractJSON_fencedJson inner]
  exact braceSlice_no_brace inner h

/-- Counterexample for C5: a json-fenced input whose inner content has prose
around the brace span does NOT yield the exact inner content with fences
removed — the brace-span step still applies. -/
theorem spec_C5_counterexample :
    "```json\nx\x7b\x7d\n```".toList = fenceJson ++ (("\nx\x7b\x7d\n".toList) ++ fence) ∧
    extractJSON ("```json\nx\x7b\x7d\n```".toList) = "\x7b\x7d".toList ∧
    "\x7b\x7d".toList ≠ "\nx\x7b\x7d\n".toList := by
  refine ⟨by decide, by decide, by decide⟩

/-- Witness for C5: a brace span surrounded by prose is extracted exactly. -/
theorem spec_C5_witness :
    extractJSON (("see ".toList) ++ '\x7b' :: (("1".toList) ++ '\x7d' :: (" ok".toList))) =
      '\x7b' :: (("1".toList) ++ ['\x7d']) :=
  spec_C5.2.2.2.2 ("see ".toList) ("1".toList) (" ok".toList) (by decide) (by decide)

end MoviesGPT
